import Mathlib

set_option linter.unusedVariables false

/-!
Shallow embedding of `src/librustc/middle/region.rs`: the `Scope` value type
and the `ScopeTree` region hierarchy, together with proofs about the recording
and query operations.

Modelling conventions:
* `hir::ItemLocalId` is modelled as `Nat`; `ScopeDepth` (`u32`) as `Nat`
  (depths are only ever incremented by one from zero, so no overflow occurs
  in any recorded tree).
* `FxHashMap` is modelled as an insertion list whose lookup takes the most
  recent entry for a key; this is observationally the hash map's
  get/insert-replaces semantics.
* Operations that can `assert!`/`bug!` (a fatal abort) return `Option`:
  `none` models the abort.
* The query loops of the source (`temporary_scope`, `is_subscope_of`,
  `containing_body`, the lockstep loop of `nearest_common_ancestor`) iterate
  over parent links and terminate on every tree the recording API can build;
  they are embedded with an explicit fuel of `parent_map.length + 1`, which
  is shown sufficient for every depth-consistent map. Fuel exhaustion (only
  possible on maps that break the recording invariant, where the source
  would loop forever or panic) is signalled by an outer `none`.
-/

/-- `ScopeData` from region.rs: the kind tag of a scope. -/
inductive ScopeData where
  | node
  | callSite
  | arguments
  | destruction
  | remainder (first_statement_index : Nat)
  deriving DecidableEq, Repr

/-- `Scope`: an item-local id together with its kind tag. -/
structure Scope where
  id : Nat
  data : ScopeData
  deriving DecidableEq, Repr

/-- `Scope::item_local_id`. -/
def Scope.item_local_id (s : Scope) : Nat := s.id

/-- Association-list lookup modelling `FxHashMap::get`; later insertions are
consed at the front, so the first match is the current binding. -/
def aLookup {α β : Type} [DecidableEq α] : List (α × β) → α → Option β
  | [], _ => none
  | (k, v) :: rest, key => if key = k then some v else aLookup rest key

/-- The fields of `ScopeTree` that the verified operations touch.
(`yield_in_scope` and `body_expr_count` are value stores with no logic of
their own and are not needed by any verified claim.) -/
structure ScopeTree where
  root_body : Option Nat
  parent_map : List (Scope × Scope × Nat)
  var_map : List (Nat × Scope)
  destruction_scopes : List (Nat × Scope)
  rvalue_scopes : List (Nat × Option Scope)
  closure_tree : List (Nat × Nat)
  deriving DecidableEq, Repr

/-- Parent-map lookup: `self.parent_map.get(&id)`. -/
def pmLookup (t : ScopeTree) (s : Scope) : Option (Scope × Nat) :=
  aLookup t.parent_map s

/-- The second half of `record_scope_parent`: if the child is a
`Destruction` scope, register it in `destruction_scopes`. -/
def ScopeTree.addDestruction (t : ScopeTree) (child : Scope) : ScopeTree :=
  if child.data = ScopeData.destruction then
    { t with destruction_scopes := (child.item_local_id, child) :: t.destruction_scopes }
  else t

/-- `ScopeTree::record_scope_parent`. The source inserts and then
`assert!`s that there was no previous entry; since the assert aborts the
process, this is observationally check-then-insert, with `none` modelling
the abort. -/
def ScopeTree.record_scope_parent (t : ScopeTree) (child : Scope)
    (parent : Option (Scope × Nat)) : Option ScopeTree :=
  match parent with
  | some p =>
    match aLookup t.parent_map child with
    | some _ => none
    | none =>
      some (ScopeTree.addDestruction { t with parent_map := (child, p) :: t.parent_map } child)
  | none => some (ScopeTree.addDestruction t child)

/-- `ScopeTree::opt_destruction_scope`. -/
def ScopeTree.opt_destruction_scope (t : ScopeTree) (n : Nat) : Option Scope :=
  aLookup t.destruction_scopes n

/-- `ScopeTree::record_closure_parent`: asserts the two ids differ and that
no entry exists yet; `none` models either failing assert. -/
def ScopeTree.record_closure_parent (t : ScopeTree) (sub_closure sup_closure : Nat) :
    Option ScopeTree :=
  if sub_closure = sup_closure then none
  else
    match aLookup t.closure_tree sub_closure with
    | some _ => none
    | none => some { t with closure_tree := (sub_closure, sup_closure) :: t.closure_tree }

/-- `ScopeTree::record_var_scope`: asserts `var != lifetime.item_local_id()`
and then inserts (replacing any previous binding). -/
def ScopeTree.record_var_scope (t : ScopeTree) (var : Nat) (lifetime : Scope) :
    Option ScopeTree :=
  if var = lifetime.item_local_id then none
  else some { t with var_map := (var, lifetime) :: t.var_map }

/-- `ScopeTree::record_rvalue_scope`: the id assert fires only when the
override is `some`; the insert replaces any previous binding. -/
def ScopeTree.record_rvalue_scope (t : ScopeTree) (var : Nat) (lifetime : Option Scope) :
    Option ScopeTree :=
  match lifetime with
  | some l =>
    if var = l.item_local_id then none
    else some { t with rvalue_scopes := (var, some l) :: t.rvalue_scopes }
  | none => some { t with rvalue_scopes := (var, none) :: t.rvalue_scopes }

/-- `ScopeTree::opt_encl_scope`. -/
def ScopeTree.opt_encl_scope (t : ScopeTree) (id : Scope) : Option Scope :=
  (pmLookup t id).map (fun pd => pd.1)

/-- `ScopeTree::var_scope`; `none` models the fatal `bug!` on a missing
binding. -/
def ScopeTree.var_scope (t : ScopeTree) (var_id : Nat) : Option Scope :=
  aLookup t.var_map var_id

/-- The `while let` walk of `ScopeTree::temporary_scope`, with fuel.
`some r` is the source's return value `r`; `none` is fuel exhaustion. -/
def temporary_scope_go (t : ScopeTree) : Nat → Scope → Option (Option Scope)
  | 0, id =>
    match pmLookup t id with
    | none => some none
    | some _ => none
  | fuel + 1, id =>
    match pmLookup t id with
    | none => some none
    | some (p, _) =>
      if p.data = ScopeData.destruction then some (some id)
      else temporary_scope_go t fuel p

/-- `ScopeTree::temporary_scope`: a recorded rvalue-scope override is
returned verbatim; otherwise walk up from the `Node` scope of `expr_id`
looking for a `Destruction` parent. -/
def ScopeTree.temporary_scope (t : ScopeTree) (expr_id : Nat) : Option (Option Scope) :=
  match aLookup t.rvalue_scopes expr_id with
  | some s => some s
  | none => temporary_scope_go t (t.parent_map.length + 1) { id := expr_id, data := ScopeData.node }

/-- The walk of `ScopeTree::is_subscope_of`, with fuel: walk `s` upward
until it equals `superscope` (`some true`) or hits a root (`some false`). -/
def is_subscope_of_go (t : ScopeTree) (superscope : Scope) : Nat → Scope → Option Bool
  | 0, s =>
    if superscope = s then some true
    else
      match pmLookup t s with
      | none => some false
      | some _ => none
  | fuel + 1, s =>
    if superscope = s then some true
    else
      match pmLookup t s with
      | none => some false
      | some (p, _) => is_subscope_of_go t superscope fuel p

/-- `ScopeTree::is_subscope_of`. -/
def ScopeTree.is_subscope_of (t : ScopeTree) (subscope superscope : Scope) : Option Bool :=
  is_subscope_of_go t superscope (t.parent_map.length + 1) subscope

/-- `ScopeTree::scopes_intersect`. -/
def ScopeTree.scopes_intersect (t : ScopeTree) (scope1 scope2 : Scope) : Option Bool :=
  match t.is_subscope_of scope1 scope2, t.is_subscope_of scope2 scope1 with
  | some b1, some b2 => some (b1 || b2)
  | _, _ => none

/-- The loop of `ScopeTree::containing_body`, with fuel: return the id of
the first `CallSite` scope met (the starting scope included), `some none`
when a root is reached first. -/
def containing_body_go (t : ScopeTree) : Nat → Scope → Option (Option Nat)
  | 0, scope =>
    if scope.data = ScopeData.callSite then some (some scope.id)
    else
      match pmLookup t scope with
      | none => some none
      | some _ => none
  | fuel + 1, scope =>
    if scope.data = ScopeData.callSite then some (some scope.id)
    else
      match pmLookup t scope with
      | none => some none
      | some (p, _) => containing_body_go t fuel p

/-- `ScopeTree::containing_body`. -/
def ScopeTree.containing_body (t : ScopeTree) (scope : Scope) : Option (Option Nat) :=
  containing_body_go t (t.parent_map.length + 1) scope

/-- Walk exactly `n` parent links, `none` modelling the source's
`.unwrap()` panic on a missing parent. -/
def walkUpN (t : ScopeTree) : Nat → Scope → Option Scope
  | 0, s => some s
  | n + 1, s =>
    match pmLookup t s with
    | some (p, _) => walkUpN t n p
    | none => none

/-- The final lockstep loop of `nearest_common_ancestor`, with fuel: move
both scopes up one link at a time until they coincide. `none` models
either the `.unwrap()` panic or fuel exhaustion. -/
def lockstep_go (t : ScopeTree) : Nat → Scope → Scope → Option Scope
  | 0, a, b => if a = b then some a else none
  | fuel + 1, a, b =>
    if a = b then some a
    else
      match pmLookup t a, pmLookup t b with
      | some (pa, _), some (pb, _) => lockstep_go t fuel pa pb
      | _, _ => none

/-- `ScopeTree::nearest_common_ancestor`: equal scopes and parentless
scopes are answered immediately; otherwise the deeper side is walked up by
the exact depth difference and the lockstep loop finishes. The stored
depth of a child entry is the child's own depth. `none` models a panic
(the `.unwrap()`s and the `assert!(parent_a_depth != 0)`). -/
def ScopeTree.nearest_common_ancestor (t : ScopeTree) (scope_a scope_b : Scope) :
    Option Scope :=
  if scope_a = scope_b then some scope_a
  else
    match pmLookup t scope_a with
    | none => some scope_a
    | some (parent_a, parent_a_depth) =>
      match pmLookup t scope_b with
      | none => some scope_b
      | some (parent_b, parent_b_depth) =>
        if parent_b_depth < parent_a_depth then
          match walkUpN t (parent_a_depth - parent_b_depth - 1) parent_a with
          | none => none
          | some a2 => lockstep_go t (t.parent_map.length + 1) a2 scope_b
        else if parent_a_depth < parent_b_depth then
          match walkUpN t (parent_b_depth - parent_a_depth - 1) parent_b with
          | none => none
          | some b2 => lockstep_go t (t.parent_map.length + 1) scope_a b2
        else
          if parent_a_depth = 0 then none
          else lockstep_go t (t.parent_map.length + 1) parent_a parent_b

/-- Model of `rustc_span::Span` for `Scope::span`: a byte range plus a
syntax context. -/
structure SpanM where
  lo : Nat
  hi : Nat
  ctxt : Nat
  deriving DecidableEq, Repr

/-- `DUMMY_SP`. -/
def dummySpanM : SpanM := { lo := 0, hi := 0, ctxt := 0 }

/-- The two `tcx.hir()` queries `Scope::span` consults: the span of a node
and, when the node is a `Block`, the spans of its statements. -/
structure HirCtx where
  nodeSpan : Nat → SpanM
  blockStmtSpans : Nat → Option (List SpanM)

/-- `Scope::span`. `hir_id` is dummy exactly when the tree has no
`root_body` (then `DUMMY_SP` is returned). For a `Remainder` scope whose
node is a block, the result reuses the block's span with `lo` moved to the
indexed statement's `lo`, guarded by that `lo` lying inside the block's
span; indexing `blk.stmts` out of bounds is the source's panic (`none`). -/
def Scope.span (s : Scope) (tcx : HirCtx) (scope_tree : ScopeTree) : Option SpanM :=
  match scope_tree.root_body with
  | none => some dummySpanM
  | some _ =>
    let sp := tcx.nodeSpan s.id
    match s.data with
    | ScopeData.remainder first_statement_index =>
      match tcx.blockStmtSpans s.id with
      | some stmts =>
        match stmts[first_statement_index]? with
        | none => none
        | some stmt_span =>
          if sp.lo ≤ stmt_span.lo ∧ stmt_span.lo ≤ sp.hi then
            some { lo := stmt_span.lo, hi := sp.hi, ctxt := sp.ctxt }
          else some sp
      | none => some sp
    | _ => some sp

/-- The depth a scope is recorded at: the stored depth of its parent-map
entry, `0` for a root (a scope with no entry). -/
def scopeDepth (t : ScopeTree) (s : Scope) : Nat :=
  match pmLookup t s with
  | some (_, d) => d
  | none => 0

/-- The recording invariant of `parent_map` (spec section 3): every child
entry's stored depth is its parent's depth plus one. This is exactly what
a postorder walk recording `(parent, parent_depth + 1)` maintains, and it
forces the map to be an acyclic forest. -/
def DepthConsistent (t : ScopeTree) : Prop :=
  ∀ e ∈ t.parent_map, e.2.2 = scopeDepth t e.2.1 + 1

instance (t : ScopeTree) : Decidable (DepthConsistent t) :=
  inferInstanceAs (Decidable (∀ e ∈ t.parent_map, e.2.2 = scopeDepth t e.2.1 + 1))

/-- Reflexive-transitive closure of the parent link: `c` lexically encloses
`s` (or equals it). -/
inductive Ancestor (t : ScopeTree) : Scope → Scope → Prop where
  | refl (s : Scope) : Ancestor t s s
  | step {s p c : Scope} {d : Nat} :
      pmLookup t s = some (p, d) → Ancestor t p c → Ancestor t s c

/-- `IsNCA t a b c`: `c` is a common ancestor of `a` and `b` below every
other common ancestor. -/
def IsNCA (t : ScopeTree) (a b c : Scope) : Prop :=
  Ancestor t a c ∧ Ancestor t b c ∧
    ∀ c', Ancestor t a c' → Ancestor t b c' → Ancestor t c c'

/-- The walk the source's `temporary_scope` performs when no override is
recorded: from a scope, return the first scope on the upward walk whose
parent is a `Destruction` scope (the scope just below that parent), and
`none` when a parentless scope is reached first. -/
inductive TempWalk (t : ScopeTree) : Scope → Option Scope → Prop where
  | found {s p : Scope} {d : Nat} :
      pmLookup t s = some (p, d) → p.data = ScopeData.destruction →
      TempWalk t s (some s)
  | up {s p : Scope} {d : Nat} {r : Option Scope} :
      pmLookup t s = some (p, d) → p.data ≠ ScopeData.destruction →
      TempWalk t p r → TempWalk t s r
  | root {s : Scope} : pmLookup t s = none → TempWalk t s none

/-- The walk of `containing_body`: the starting scope itself is examined
first, so a `CallSite` start answers its own id; otherwise the first
`CallSite` ancestor answers, and a parentless scope answers `none`. -/
inductive BodyWalk (t : ScopeTree) : Scope → Option Nat → Prop where
  | callsite {s : Scope} :
      s.data = ScopeData.callSite → BodyWalk t s (some s.id)
  | up {s p : Scope} {d : Nat} {r : Option Nat} :
      s.data ≠ ScopeData.callSite → pmLookup t s = some (p, d) →
      BodyWalk t p r → BodyWalk t s r
  | root {s : Scope} :
      s.data ≠ ScopeData.callSite → pmLookup t s = none → BodyWalk t s none

/-! Concrete trees used to evaluate the verified operations: the spec's
scenario of a block containing a statement-remainder scope containing a
`Destruction` scope containing a temporary's `Node` scope, all under a
`CallSite` root. -/

/-- An empty tree (the state right after `ScopeTree::default()`). -/
def emptyTree : ScopeTree :=
  { root_body := none, parent_map := [], var_map := [], destruction_scopes := [],
    rvalue_scopes := [], closure_tree := [] }

/-- `CallSite` root of the sample body. -/
def wCsB : Scope := { id := 1, data := ScopeData.callSite }

/-- Block scope `B` (depth 1). -/
def wBlockB : Scope := { id := 2, data := ScopeData.node }

/-- Statement scope `S0` (`Remainder{0}` of block `B`, depth 2). -/
def wRem0 : Scope := { id := 2, data := ScopeData.remainder 0 }

/-- `Destruction` scope `D` (depth 3). -/
def wDestD : Scope := { id := 3, data := ScopeData.destruction }

/-- `Node` scope of the temporary `T` (depth 4). -/
def wNodeT : Scope := { id := 4, data := ScopeData.node }

/-- The sample tree: `CallSite ⊃ B ⊃ S0 ⊃ D ⊃ Node(T)` with depths 1–4. -/
def wTree : ScopeTree :=
  { root_body := some 0
    parent_map := [(wNodeT, wDestD, 4), (wDestD, wRem0, 3),
      (wRem0, wBlockB, 2), (wBlockB, wCsB, 1)]
    var_map := []
    destruction_scopes := [(3, wDestD)]
    rvalue_scopes := []
    closure_tree := [] }

/-- The sample tree with an explicit `None` rvalue-scope override recorded
for the temporary's expression id. -/
def wOvTree : ScopeTree := { wTree with rvalue_scopes := [(4, none)] }

/-- Result of `record_closure_parent(0, 1)` on the empty tree. -/
def wClosTree : ScopeTree := { emptyTree with closure_tree := [(0, 1)] }

/-- A fresh child scope for exercising `record_scope_parent`. -/
def wChild : Scope := { id := 5, data := ScopeData.node }

/-- Result of `record_scope_parent(wChild, Some((Node(6), 1)))` on the
empty tree. -/
def wParTree : ScopeTree :=
  { emptyTree with parent_map := [(wChild, { id := 6, data := ScopeData.node }, 1)] }

/-- A source map for `Scope::span`: every node has span `[0, 10)` and every
block has a single statement with span `[5, 7)`. -/
def cexHir : HirCtx :=
  { nodeSpan := fun _ => { lo := 0, hi := 10, ctxt := 0 }
    blockStmtSpans := fun _ => some [{ lo := 5, hi := 7, ctxt := 0 }] }

/-- A `Remainder{0}` scope over that block. -/
def cexRemScope : Scope := { id := 3, data := ScopeData.remainder 0 }

/-! Basic lemmas about lookups, depths and ancestry. -/

theorem aLookup_mem {α β : Type} [DecidableEq α] {l : List (α × β)} {k : α} {v : β}
    (h : aLookup l k = some v) : (k, v) ∈ l := by
  induction l with
  | nil => simp [aLookup] at h
  | cons e rest ih =>
    obtain ⟨k1, v1⟩ := e
    simp only [aLookup] at h
    split at h
    · rename_i hk
      cases h
      subst hk
      exact List.mem_cons_self _ _
    · exact List.mem_cons_of_mem _ (ih h)

theorem scopeDepth_lookup {t : ScopeTree} {s p : Scope} {d : Nat}
    (h : pmLookup t s = some (p, d)) : scopeDepth t s = d := by
  simp [scopeDepth, h]

theorem scopeDepth_root {t : ScopeTree} {s : Scope}
    (h : pmLookup t s = none) : scopeDepth t s = 0 := by
  simp [scopeDepth, h]

theorem dc_of_lookup {t : ScopeTree} (hdc : DepthConsistent t) {s p : Scope} {d : Nat}
    (h : pmLookup t s = some (p, d)) : d = scopeDepth t p + 1 :=
  hdc (s, (p, d)) (aLookup_mem h)

theorem lookup_of_depth_pos {t : ScopeTree} {s : Scope}
    (h : 0 < scopeDepth t s) : ∃ p d, pmLookup t s = some (p, d) := by
  cases hl : pmLookup t s with
  | none => rw [scopeDepth_root hl] at h; exact absurd h (by omega)
  | some pd =>
    obtain ⟨p, d⟩ := pd
    exact ⟨p, d, rfl⟩

theorem ancestor_trans {t : ScopeTree} {a b c : Scope}
    (hab : Ancestor t a b) : Ancestor t b c → Ancestor t a c := by
  induction hab with
  | refl s => exact id
  | step h hanc ih => exact fun hbc => Ancestor.step h (ih hbc)

theorem ancestor_depth_le {t : ScopeTree} (hdc : DepthConsistent t) {a c : Scope}
    (h : Ancestor t a c) : scopeDepth t c ≤ scopeDepth t a := by
  induction h with
  | refl s => exact Nat.le_refl _
  | step hl hanc ih =>
    have hd := dc_of_lookup hdc hl
    have hs := scopeDepth_lookup hl
    omega

theorem ancestor_eq_of_depth_le {t : ScopeTree} (hdc : DepthConsistent t) {a c : Scope}
    (h : Ancestor t a c) (hle : scopeDepth t a ≤ scopeDepth t c) : a = c := by
  cases h with
  | refl s => rfl
  | step hl hanc =>
    have h1 := ancestor_depth_le hdc hanc
    have hd := dc_of_lookup hdc hl
    have hs := scopeDepth_lookup hl
    omega

theorem ancestor_antisymm {t : ScopeTree} (hdc : DepthConsistent t) {a b : Scope}
    (h1 : Ancestor t a b) (h2 : Ancestor t b a) : a = b :=
  ancestor_eq_of_depth_le hdc h1 (ancestor_depth_le hdc h2)

theorem ancestor_root {t : ScopeTree} {a c : Scope}
    (h : Ancestor t a c) (hr : pmLookup t a = none) : c = a := by
  cases h with
  | refl s => rfl
  | step hl hanc => rw [hr] at hl; cases hl

theorem ancestor_step_of_ne {t : ScopeTree} {a c : Scope}
    (h : Ancestor t a c) (hne : c ≠ a) :
    ∃ p d, pmLookup t a = some (p, d) ∧ Ancestor t p c := by
  cases h with
  | refl s => exact absurd rfl hne
  | step hl hanc => exact ⟨_, _, hl, hanc⟩

theorem lookup_funct {t : ScopeTree} {a p1 p2 : Scope} {d1 d2 : Nat}
    (h1 : pmLookup t a = some (p1, d1)) (h2 : pmLookup t a = some (p2, d2)) :
    p2 = p1 ∧ d2 = d1 := by
  rw [h1] at h2
  cases h2
  exact ⟨rfl, rfl⟩

theorem ancestor_linear {t : ScopeTree} (hdc : DepthConsistent t) {a x : Scope}
    (hax : Ancestor t a x) :
    ∀ {y : Scope}, Ancestor t a y → scopeDepth t y ≤ scopeDepth t x → Ancestor t x y := by
  induction hax with
  | refl s => exact fun hay _ => hay
  | step hl hanc ih =>
    intro y hay hle
    rename_i s p d
    cases hay with
    | refl =>
      have h1 := ancestor_depth_le hdc hanc
      have hd := dc_of_lookup hdc hl
      have hs := scopeDepth_lookup hl
      omega
    | step hl2 hanc2 =>
      obtain ⟨hp, hd⟩ := lookup_funct hl hl2
      subst hp
      exact ih hanc2 hle

/-! Fuel sufficiency: in a depth-consistent map, the depth of any scope is
bounded by the number of map entries, so `parent_map.length + 1` fuel is
enough for every upward walk. -/

theorem exists_chain {t : ScopeTree} (hdc : DepthConsistent t) :
    ∀ d s, scopeDepth t s = d →
      ∃ l : List Scope, l.Nodup ∧ l.length = d ∧
        (∀ x ∈ l, (pmLookup t x).isSome) ∧ (∀ x ∈ l, scopeDepth t x ≤ d) := by
  intro d
  induction d with
  | zero => intro s _; exact ⟨[], List.nodup_nil, rfl, by simp, by simp⟩
  | succ k ih =>
    intro s hs
    obtain ⟨p, dd, h⟩ := lookup_of_depth_pos (t := t) (s := s) (by omega)
    have hds := scopeDepth_lookup h
    have hdp := dc_of_lookup hdc h
    obtain ⟨l, hnd, hlen, hkeys, hle⟩ := ih p (by omega)
    refine ⟨s :: l, ?_, by simp [hlen], ?_, ?_⟩
    · refine List.nodup_cons.mpr ⟨fun hmem => ?_, hnd⟩
      have := hle s hmem
      omega
    · intro x hx
      rcases List.mem_cons.mp hx with hx | hx
      · subst hx; simp [h]
      · exact hkeys x hx
    · intro x hx
      rcases List.mem_cons.mp hx with hx | hx
      · subst hx; omega
      · have := hle x hx; omega

theorem depth_le_length {t : ScopeTree} (hdc : DepthConsistent t) (s : Scope) :
    scopeDepth t s ≤ t.parent_map.length := by
  obtain ⟨l, hnd, hlen, hkeys, _⟩ := exists_chain hdc (scopeDepth t s) s rfl
  have hsub : l ⊆ t.parent_map.map Prod.fst := by
    intro x hx
    obtain ⟨pd, hpd⟩ := Option.isSome_iff_exists.mp (hkeys x hx)
    exact List.mem_map_of_mem Prod.fst (aLookup_mem hpd)
  calc scopeDepth t s = l.length := hlen.symm
    _ ≤ (t.parent_map.map Prod.fst).length := (hnd.subperm hsub).length_le
    _ = t.parent_map.length := List.length_map _ _

/-! Characterization of the fueled walks on depth-consistent maps. -/

theorem temporary_scope_go_spec {t : ScopeTree} (hdc : DepthConsistent t) :
    ∀ fuel s, scopeDepth t s < fuel →
      ∃ r, temporary_scope_go t fuel s = some r ∧ TempWalk t s r := by
  intro fuel
  induction fuel with
  | zero => intro s h; exact absurd h (Nat.not_lt_zero _)
  | succ f ih =>
    intro s hfuel
    cases h : pmLookup t s with
    | none => exact ⟨none, by simp [temporary_scope_go, h], TempWalk.root h⟩
    | some pd =>
      obtain ⟨p, d⟩ := pd
      by_cases hp : p.data = ScopeData.destruction
      · exact ⟨some s, by simp [temporary_scope_go, h, hp], TempWalk.found h hp⟩
      · have hds := scopeDepth_lookup h
        have hdp := dc_of_lookup hdc h
        obtain ⟨r, hr, hw⟩ := ih p (by omega)
        exact ⟨r, by simp [temporary_scope_go, h, hp, hr], TempWalk.up h hp hw⟩

theorem containing_body_go_spec {t : ScopeTree} (hdc : DepthConsistent t) :
    ∀ fuel s, scopeDepth t s < fuel →
      ∃ r, containing_body_go t fuel s = some r ∧ BodyWalk t s r := by
  intro fuel
  induction fuel with
  | zero => intro s h; exact absurd h (Nat.not_lt_zero _)
  | succ f ih =>
    intro s hfuel
    by_cases hcs : s.data = ScopeData.callSite
    · exact ⟨some s.id, by simp [containing_body_go, hcs], BodyWalk.callsite hcs⟩
    · cases h : pmLookup t s with
      | none => exact ⟨none, by simp [containing_body_go, hcs, h], BodyWalk.root hcs h⟩
      | some pd =>
        obtain ⟨p, d⟩ := pd
        have hds := scopeDepth_lookup h
        have hdp := dc_of_lookup hdc h
        obtain ⟨r, hr, hw⟩ := ih p (by omega)
        exact ⟨r, by simp [containing_body_go, hcs, h, hr], BodyWalk.up hcs h hw⟩

theorem is_subscope_of_go_spec {t : ScopeTree} (hdc : DepthConsistent t) (sup : Scope) :
    ∀ fuel s, scopeDepth t s < fuel →
      ∃ b, is_subscope_of_go t sup fuel s = some b ∧ (b = true ↔ Ancestor t s sup) := by
  intro fuel
  induction fuel with
  | zero => intro s h; exact absurd h (Nat.not_lt_zero _)
  | succ f ih =>
    intro s hfuel
    by_cases hss : sup = s
    · subst hss
      exact ⟨true, by simp [is_subscope_of_go], by simp [Ancestor.refl]⟩
    · cases h : pmLookup t s with
      | none =>
        refine ⟨false, by simp [is_subscope_of_go, hss, h], ?_⟩
        simp only [Bool.false_eq_true, false_iff]
        intro hanc
        exact hss (ancestor_root hanc h)
      | some pd =>
        obtain ⟨p, d⟩ := pd
        have hds := scopeDepth_lookup h
        have hdp := dc_of_lookup hdc h
        obtain ⟨b, hb, hiff⟩ := ih p (by omega)
        refine ⟨b, by simp [is_subscope_of_go, hss, h, hb], ?_⟩
        rw [hiff]
        constructor
        · exact fun hanc => Ancestor.step h hanc
        · intro hanc
          obtain ⟨p2, d2, hl2, hanc2⟩ := ancestor_step_of_ne hanc hss
          obtain ⟨hp, _⟩ := lookup_funct h hl2
          rwa [hp] at hanc2

theorem is_subscope_iff {t : ScopeTree} (hdc : DepthConsistent t) (x y : Scope) :
    t.is_subscope_of x y = some true ↔ Ancestor t x y := by
  obtain ⟨b, hb, hiff⟩ :=
    is_subscope_of_go_spec hdc y (t.parent_map.length + 1) x
      (Nat.lt_succ_of_le (depth_le_length hdc x))
  rw [ScopeTree.is_subscope_of, hb]
  constructor
  · intro h
    cases h
    exact hiff.mp rfl
  · intro h
    rw [hiff.mpr h]

theorem is_subscope_refl (t : ScopeTree) (s : Scope) :
    t.is_subscope_of s s = some true := by
  simp [ScopeTree.is_subscope_of, is_subscope_of_go]

/-! Correctness of `nearest_common_ancestor` on depth-consistent maps. -/

theorem walkUpN_spec {t : ScopeTree} (hdc : DepthConsistent t) :
    ∀ n s, n ≤ scopeDepth t s →
      ∃ s2, walkUpN t n s = some s2 ∧ Ancestor t s s2 ∧
        scopeDepth t s2 + n = scopeDepth t s := by
  intro n
  induction n with
  | zero => intro s _; exact ⟨s, rfl, Ancestor.refl s, by omega⟩
  | succ k ih =>
    intro s hn
    obtain ⟨p, d, h⟩ := lookup_of_depth_pos (t := t) (s := s) (by omega)
    have hds := scopeDepth_lookup h
    have hdp := dc_of_lookup hdc h
    obtain ⟨s2, hw, hanc, hdepth⟩ := ih p (by omega)
    exact ⟨s2, by simp [walkUpN, h, hw], Ancestor.step h hanc, by omega⟩

theorem isNCA_lift {t : ScopeTree} (hdc : DepthConsistent t) {a b pa pb n : Scope}
    {da db : Nat} (hab : a ≠ b)
    (hla : pmLookup t a = some (pa, da)) (hlb : pmLookup t b = some (pb, db))
    (hdep : scopeDepth t a = scopeDepth t b) (h : IsNCA t pa pb n) : IsNCA t a b n := by
  obtain ⟨h1, h2, hmin⟩ := h
  refine ⟨Ancestor.step hla h1, Ancestor.step hlb h2, ?_⟩
  intro c' hac' hbc'
  have hc'a : c' ≠ a := by
    intro he
    subst he
    exact hab (ancestor_eq_of_depth_le hdc hbc' (by omega)).symm
  have hc'b : c' ≠ b := by
    intro he
    subst he
    exact hab (ancestor_eq_of_depth_le hdc hac' (by omega))
  obtain ⟨p1, d1, hl1, hanc1⟩ := ancestor_step_of_ne hac' hc'a
  obtain ⟨hp1, _⟩ := lookup_funct hla hl1
  obtain ⟨p2, d2, hl2, hanc2⟩ := ancestor_step_of_ne hbc' hc'b
  obtain ⟨hp2, _⟩ := lookup_funct hlb hl2
  subst hp1
  subst hp2
  exact hmin c' hanc1 hanc2

theorem lockstep_go_spec {t : ScopeTree} (hdc : DepthConsistent t) :
    ∀ fuel a b c, scopeDepth t a < fuel → scopeDepth t a = scopeDepth t b →
      Ancestor t a c → Ancestor t b c →
      ∃ n, lockstep_go t fuel a b = some n ∧ IsNCA t a b n := by
  intro fuel
  induction fuel with
  | zero => intro a b c h _ _ _; exact absurd h (Nat.not_lt_zero _)
  | succ f ih =>
    intro a b c hfuel hdep hac hbc
    by_cases hab : a = b
    · subst hab
      exact ⟨a, by simp [lockstep_go], Ancestor.refl a, Ancestor.refl a,
        fun c' h1 _ => h1⟩
    · have hca : c ≠ a := by
        intro he
        subst he
        exact hab (ancestor_eq_of_depth_le hdc hbc (by omega)).symm
      have hcb : c ≠ b := by
        intro he
        subst he
        exact hab (ancestor_eq_of_depth_le hdc hac (by omega))
      obtain ⟨pa, da, hla, hpac⟩ := ancestor_step_of_ne hac hca
      obtain ⟨pb, db, hlb, hpbc⟩ := ancestor_step_of_ne hbc hcb
      have hdsa := scopeDepth_lookup hla
      have hdpa := dc_of_lookup hdc hla
      have hdsb := scopeDepth_lookup hlb
      have hdpb := dc_of_lookup hdc hlb
      obtain ⟨n, hrun, hn⟩ := ih pa pb c (by omega) (by omega) hpac hpbc
      refine ⟨n, ?_, isNCA_lift hdc hab hla hlb hdep hn⟩
      simp [lockstep_go, hab, hla, hlb, hrun]

theorem nca_spec {t : ScopeTree} (hdc : DepthConsistent t) (a b c0 : Scope)
    (hac : Ancestor t a c0) (hbc : Ancestor t b c0) :
    ∃ c, t.nearest_common_ancestor a b = some c ∧ IsNCA t a b c := by
  by_cases hab : a = b
  · subst hab
    exact ⟨a, by simp [ScopeTree.nearest_common_ancestor], Ancestor.refl a,
      Ancestor.refl a, fun c' h1 _ => h1⟩
  · cases hla : pmLookup t a with
    | none =>
      have hc0 : c0 = a := ancestor_root hac hla
      exact ⟨a, by simp [ScopeTree.nearest_common_ancestor, hab, hla], Ancestor.refl a,
        hc0 ▸ hbc, fun c' h1 _ => h1⟩
    | some pada =>
      obtain ⟨pa, da⟩ := pada
      cases hlb : pmLookup t b with
      | none =>
        have hc0 : c0 = b := ancestor_root hbc hlb
        exact ⟨b, by simp [ScopeTree.nearest_common_ancestor, hab, hla, hlb], hc0 ▸ hac,
          Ancestor.refl b, fun c' _ h2 => h2⟩
      | some pbdb =>
        obtain ⟨pb, db⟩ := pbdb
        have hdsa := scopeDepth_lookup hla
        have hdpa := dc_of_lookup hdc hla
        have hdsb := scopeDepth_lookup hlb
        have hdpb := dc_of_lookup hdc hlb
        have hflen : ∀ s : Scope, scopeDepth t s < t.parent_map.length + 1 :=
          fun s => Nat.lt_succ_of_le (depth_le_length hdc s)
        rcases Nat.lt_trichotomy db da with hlt | heq | hlt
        · -- `a` is deeper: walk `a` up to the depth of `b`, then lockstep.
          obtain ⟨a2, hw, hanc2, hd2⟩ := walkUpN_spec hdc (da - db - 1) pa (by omega)
          have haa2 : Ancestor t a a2 := Ancestor.step hla hanc2
          have hc0b := ancestor_depth_le hdc hbc
          have ha2c0 : Ancestor t a2 c0 := ancestor_linear hdc haa2 hac (by omega)
          obtain ⟨n, hrun, hn⟩ :=
            lockstep_go_spec hdc (t.parent_map.length + 1) a2 b c0 (hflen a2)
              (by omega) ha2c0 hbc
          refine ⟨n, ?_, ?_⟩
          · simp [ScopeTree.nearest_common_ancestor, hab, hla, hlb, hlt, hw, hrun]
          · obtain ⟨h1, h2, hmin⟩ := hn
            refine ⟨ancestor_trans haa2 h1, h2, ?_⟩
            intro c' h1' h2'
            have hc' := ancestor_depth_le hdc h2'
            exact hmin c' (ancestor_linear hdc haa2 h1' (by omega)) h2'
        · -- equal depths: both sides step to their parents, then lockstep.
          subst heq
          have hca : c0 ≠ a := by
            intro he
            subst he
            exact hab (ancestor_eq_of_depth_le hdc hbc (by omega)).symm
          have hcb : c0 ≠ b := by
            intro he
            subst he
            exact hab (ancestor_eq_of_depth_le hdc hac (by omega))
          obtain ⟨pa', da', hla', hpac'⟩ := ancestor_step_of_ne hac hca
          obtain ⟨hpa', _⟩ := lookup_funct hla hla'
          have hpac : Ancestor t pa c0 := hpa' ▸ hpac'
          obtain ⟨pb', db', hlb', hpbc'⟩ := ancestor_step_of_ne hbc hcb
          obtain ⟨hpb', _⟩ := lookup_funct hlb hlb'
          have hpbc : Ancestor t pb c0 := hpb' ▸ hpbc'
          obtain ⟨n, hrun, hn⟩ :=
            lockstep_go_spec hdc (t.parent_map.length + 1) pa pb c0 (hflen pa)
              (by omega) hpac hpbc
          refine ⟨n, ?_, isNCA_lift hdc hab hla hlb (by omega) hn⟩
          have hda0 : db ≠ 0 := by omega
          simp [ScopeTree.nearest_common_ancestor, hab, hla, hlb, hda0, hrun]
        · -- `b` is deeper: walk `b` up to the depth of `a`, then lockstep.
          obtain ⟨b2, hw, hanc2, hd2⟩ := walkUpN_spec hdc (db - da - 1) pb (by omega)
          have hbb2 : Ancestor t b b2 := Ancestor.step hlb hanc2
          have hc0a := ancestor_depth_le hdc hac
          have hb2c0 : Ancestor t b2 c0 := ancestor_linear hdc hbb2 hbc (by omega)
          obtain ⟨n, hrun, hn⟩ :=
            lockstep_go_spec hdc (t.parent_map.length + 1) a b2 c0 (hflen a)
              (by omega) hac hb2c0
          refine ⟨n, ?_, ?_⟩
          · have hnlt : ¬db < da := by omega
            simp [ScopeTree.nearest_common_ancestor, hab, hla, hlb, hlt, hnlt, hw, hrun]
          · obtain ⟨h1, h2, hmin⟩ := hn
            refine ⟨h1, ancestor_trans hbb2 h2, ?_⟩
            intro c' h1' h2'
            have hc' := ancestor_depth_le hdc h1'
            exact hmin c' h1' (ancestor_linear hdc hbb2 h2' (by omega))

theorem isNCA_unique {t : ScopeTree} (hdc : DepthConsistent t) {a b c1 c2 : Scope}
    (h1 : IsNCA t a b c1) (h2 : IsNCA t a b c2) : c1 = c2 :=
  ancestor_antisymm hdc (h1.2.2 c2 h2.1 h2.2.1) (h2.2.2 c1 h1.1 h1.2.1)

theorem isNCA_swap {t : ScopeTree} {a b c : Scope} (h : IsNCA t a b c) : IsNCA t b a c :=
  ⟨h.2.1, h.1, fun c' hb ha => h.2.2 c' ha hb⟩

/-! Frame lemmas for the destruction-scope side effect of
`record_scope_parent`. -/

theorem addDestruction_parent_map (t : ScopeTree) (c : Scope) :
    (t.addDestruction c).parent_map = t.parent_map := by
  unfold ScopeTree.addDestruction
  split <;> rfl

theorem addDestruction_dest (t : ScopeTree) (c : Scope)
    (hd : c.data = ScopeData.destruction) :
    (t.addDestruction c).opt_destruction_scope c.id = some c := by
  unfold ScopeTree.addDestruction ScopeTree.opt_destruction_scope
  rw [if_pos hd]
  simp [aLookup, Scope.item_local_id]

/-! The verified claims. -/

/-- C1: for an expression id with no recorded rvalue-scope override,
`temporary_scope` performs the upward walk from the expression's `Node`
scope: it returns `some s` for the first scope `s` on that walk whose
parent is a `Destruction` scope (so the answer is the scope just below
that parent, never the `Destruction` scope itself), and returns `none`
when the walk reaches a scope with no recorded parent first. Stated for
depth-consistent parent maps (the recording invariant), on which the
source's walk terminates. -/
theorem temporary_scope_walk_correct (t : ScopeTree) (e : Nat)
    (hdc : DepthConsistent t) (hrv : aLookup t.rvalue_scopes e = none) :
    ∃ r, t.temporary_scope e = some r ∧
      TempWalk t { id := e, data := ScopeData.node } r := by
  obtain ⟨r, hr, hw⟩ :=
    temporary_scope_go_spec hdc (t.parent_map.length + 1)
      { id := e, data := ScopeData.node }
      (Nat.lt_succ_of_le (depth_le_length hdc _))
  refine ⟨r, ?_, hw⟩
  simp only [ScopeTree.temporary_scope, hrv]
  exact hr

/-- C1 witness: in the spec's concrete scenario (`B ⊃ S0 ⊃ D ⊃ Node(T)`),
the temporary scope of `T` is its own `Node` scope, the scope just below
the `Destruction` parent `D`. -/
theorem temporary_scope_walk_correct_witness :
    DepthConsistent wTree ∧ aLookup wTree.rvalue_scopes 4 = none ∧
    (∃ r, wTree.temporary_scope 4 = some r ∧
      TempWalk wTree { id := 4, data := ScopeData.node } r) ∧
    wTree.temporary_scope 4 = some (some wNodeT) :=
  ⟨by decide, by decide,
    temporary_scope_walk_correct wTree 4 (by decide) (by decide), by decide⟩

/-- C5: a recorded rvalue-scope override is returned verbatim by
`temporary_scope`, without consulting the parent map (the statement holds
for every tree with the override recorded, whatever its parent map); in
particular recording an explicit `None` override for an expression makes
`temporary_scope` of that expression `None` on any tree. -/
theorem temporary_scope_override_verbatim (t : ScopeTree) (e : Nat) (o : Option Scope)
    (hrv : aLookup t.rvalue_scopes e = some o) :
    t.temporary_scope e = some o ∧
    ∀ t2 : ScopeTree, ∃ t3, t2.record_rvalue_scope e none = some t3 ∧
      t3.temporary_scope e = some none := by
  constructor
  · simp [ScopeTree.temporary_scope, hrv]
  · intro t2
    refine ⟨{ t2 with rvalue_scopes := (e, none) :: t2.rvalue_scopes }, rfl, ?_⟩
    simp [ScopeTree.temporary_scope, aLookup]

/-- C5 witness: on the sample tree with a recorded `None` override for the
temporary (which does have an enclosing `Destruction` scope),
`temporary_scope` returns `None`. -/
theorem temporary_scope_override_verbatim_witness :
    aLookup wOvTree.rvalue_scopes 4 = some none ∧
    (wOvTree.temporary_scope 4 = some none ∧
      ∀ t2 : ScopeTree, ∃ t3, t2.record_rvalue_scope 4 none = some t3 ∧
        t3.temporary_scope 4 = some none) :=
  ⟨by decide, temporary_scope_override_verbatim wOvTree 4 none (by decide)⟩

/-- C6: recording a parent for a fresh child succeeds and is afterwards
returned by `opt_encl_scope`; any second recording of a parent for the
same child hits the duplicate-recording assertion (modelled as `none`). -/
theorem record_scope_parent_once (t : ScopeTree) (child : Scope) (pd : Scope × Nat)
    (hfresh : aLookup t.parent_map child = none) :
    ∃ t2, t.record_scope_parent child (some pd) = some t2 ∧
      t2.opt_encl_scope child = some pd.1 ∧
      ∀ pd2 : Scope × Nat, t2.record_scope_parent child (some pd2) = none := by
  refine ⟨ScopeTree.addDestruction { t with parent_map := (child, pd) :: t.parent_map } child,
    ?_, ?_, ?_⟩
  · simp [ScopeTree.record_scope_parent, hfresh]
  · simp [ScopeTree.opt_encl_scope, pmLookup, addDestruction_parent_map, aLookup]
  · intro pd2
    simp [ScopeTree.record_scope_parent, addDestruction_parent_map, aLookup]

/-- C6 witness: recording a parent for a fresh scope in the empty tree,
reading it back, and failing on the second recording. -/
theorem record_scope_parent_once_witness :
    aLookup emptyTree.parent_map wChild = none ∧
    ∃ t2, emptyTree.record_scope_parent wChild
        (some ({ id := 6, data := ScopeData.node }, 1)) = some t2 ∧
      t2.opt_encl_scope wChild = some { id := 6, data := ScopeData.node } ∧
      ∀ pd2 : Scope × Nat, t2.record_scope_parent wChild (some pd2) = none :=
  ⟨by decide, record_scope_parent_once emptyTree wChild
    ({ id := 6, data := ScopeData.node }, 1) (by decide)⟩

/-- C8: `record_scope_parent(child, None)` always succeeds, leaves
`parent_map` untouched and performs no duplicate check (first conjunct,
for an arbitrary child of any kind); for a `Destruction` child it still
registers the child in `destruction_scopes`, so `opt_destruction_scope`
finds it even though the child was never given a parent. -/
theorem record_scope_parent_none_effects (t : ScopeTree) (child : Scope)
    (hd : child.data = ScopeData.destruction) :
    (∀ c : Scope, ∃ t2, t.record_scope_parent c none = some t2 ∧
      t2.parent_map = t.parent_map) ∧
    ∃ t2, t.record_scope_parent child none = some t2 ∧
      t2.opt_destruction_scope child.id = some child := by
  constructor
  · intro c
    exact ⟨t.addDestruction c, rfl, addDestruction_parent_map t c⟩
  · exact ⟨t.addDestruction child, rfl, addDestruction_dest t child hd⟩

/-- C8 witness: a parentless `Destruction` scope recorded with `None` on
the empty tree is still found by `opt_destruction_scope`. -/
theorem record_scope_parent_none_effects_witness :
    wDestD.data = ScopeData.destruction ∧
    ((∀ c : Scope, ∃ t2, emptyTree.record_scope_parent c none = some t2 ∧
        t2.parent_map = emptyTree.parent_map) ∧
      ∃ t2, emptyTree.record_scope_parent wDestD none = some t2 ∧
        t2.opt_destruction_scope wDestD.id = some wDestD) :=
  ⟨by decide, record_scope_parent_none_effects emptyTree wDestD (by decide)⟩

/-- C9: `record_var_scope` and `record_rvalue_scope` never fail on a
repeated key — a second recording for the same id silently overwrites the
previous one (their only assertion is the id differing from the recorded
scope's own item-local id) — unlike `record_closure_parent` and
`record_scope_parent`, which abort on any duplicate. -/
theorem record_overwrite_vs_abort (t t1 t2 : ScopeTree) (v sub_c sup_c : Nat)
    (s1 s2 : Scope) (child : Scope) (pd : Scope × Nat)
    (h1 : v ≠ s1.item_local_id) (h2 : v ≠ s2.item_local_id)
    (hclo : t.record_closure_parent sub_c sup_c = some t1)
    (hpar : t.record_scope_parent child (some pd) = some t2) :
    (∃ u1 u2, t.record_var_scope v s1 = some u1 ∧
      u1.record_var_scope v s2 = some u2 ∧ u2.var_scope v = some s2) ∧
    (∃ u1 u2, t.record_rvalue_scope v (some s1) = some u1 ∧
      u1.record_rvalue_scope v (some s2) = some u2 ∧
      aLookup u2.rvalue_scopes v = some (some s2)) ∧
    (∀ sup2 : Nat, t1.record_closure_parent sub_c sup2 = none) ∧
    (∀ pd2 : Scope × Nat, t2.record_scope_parent child (some pd2) = none) := by
  refine ⟨?_, ?_, ?_, ?_⟩
  · refine ⟨{ t with var_map := (v, s1) :: t.var_map },
      { t with var_map := (v, s2) :: (v, s1) :: t.var_map }, ?_, ?_, ?_⟩
    · simp [ScopeTree.record_var_scope, h1]
    · simp [ScopeTree.record_var_scope, h2]
    · simp [ScopeTree.var_scope, aLookup]
  · refine ⟨{ t with rvalue_scopes := (v, some s1) :: t.rvalue_scopes },
      { t with rvalue_scopes := (v, some s2) :: (v, some s1) :: t.rvalue_scopes },
      ?_, ?_, ?_⟩
    · simp [ScopeTree.record_rvalue_scope, h1]
    · simp [ScopeTree.record_rvalue_scope, h2]
    · simp [aLookup]
  · intro sup2
    by_cases hss : sub_c = sup_c
    · simp [ScopeTree.record_closure_parent, hss] at hclo
    · cases hlk : aLookup t.closure_tree sub_c with
      | some x => simp [ScopeTree.record_closure_parent, hss, hlk] at hclo
      | none =>
        simp [ScopeTree.record_closure_parent, hss, hlk] at hclo
        by_cases hss2 : sub_c = sup2
        · simp [ScopeTree.record_closure_parent, hss2]
        · simp [ScopeTree.record_closure_parent, hss2, ← hclo, aLookup]
  · intro pd2
    cases hlk : aLookup t.parent_map child with
    | some x => simp [ScopeTree.record_scope_parent, hlk] at hpar
    | none =>
      simp [ScopeTree.record_scope_parent, hlk] at hpar
      simp [ScopeTree.record_scope_parent, ← hpar, addDestruction_parent_map, aLookup]

/-- C9 witness: on the empty tree, overwriting var and rvalue recordings
for id 0 succeeds, while duplicate closure-parent and scope-parent
recordings abort. -/
theorem record_overwrite_vs_abort_witness :
    (0 : Nat) ≠ Scope.item_local_id { id := 1, data := ScopeData.node } ∧
    (0 : Nat) ≠ Scope.item_local_id { id := 2, data := ScopeData.node } ∧
    emptyTree.record_closure_parent 0 1 = some wClosTree ∧
    emptyTree.record_scope_parent wChild
      (some ({ id := 6, data := ScopeData.node }, 1)) = some wParTree ∧
    ((∃ u1 u2, emptyTree.record_var_scope 0 { id := 1, data := ScopeData.node } = some u1 ∧
        u1.record_var_scope 0 { id := 2, data := ScopeData.node } = some u2 ∧
        u2.var_scope 0 = some { id := 2, data := ScopeData.node }) ∧
      (∃ u1 u2, emptyTree.record_rvalue_scope 0
          (some { id := 1, data := ScopeData.node }) = some u1 ∧
        u1.record_rvalue_scope 0 (some { id := 2, data := ScopeData.node }) = some u2 ∧
        aLookup u2.rvalue_scopes 0 = some (some { id := 2, data := ScopeData.node })) ∧
      (∀ sup2 : Nat, wClosTree.record_closure_parent 0 sup2 = none) ∧
      (∀ pd2 : Scope × Nat, wParTree.record_scope_parent wChild (some pd2) = none)) :=
  ⟨by decide, by decide, by decide, by decide,
    record_overwrite_vs_abort emptyTree wClosTree wParTree 0 0 1
      { id := 1, data := ScopeData.node } { id := 2, data := ScopeData.node }
      wChild ({ id := 6, data := ScopeData.node }, 1)
      (by decide) (by decide) (by decide) (by decide)⟩

/-- C10: `containing_body` includes the starting scope in its search: a
`CallSite` starting scope answers its own id on every tree, without
consulting the parent map (first conjunct, quantified over all trees);
otherwise the walk answers the id of the first `CallSite` ancestor, or
`none` when it reaches a scope with no recorded parent. Stated for
depth-consistent parent maps, on which the source's loop terminates. -/
theorem containing_body_correct (t : ScopeTree) (s : Scope)
    (hdc : DepthConsistent t) :
    (∀ t2 : ScopeTree, ∀ x : Scope, x.data = ScopeData.callSite →
      t2.containing_body x = some (some x.id)) ∧
    ∃ r, t.containing_body s = some r ∧ BodyWalk t s r := by
  constructor
  · intro t2 x hx
    simp [ScopeTree.containing_body, containing_body_go, hx]
  · obtain ⟨r, hr, hw⟩ :=
      containing_body_go_spec hdc (t.parent_map.length + 1) s
        (Nat.lt_succ_of_le (depth_le_length hdc s))
    exact ⟨r, hr, hw⟩

/-- C10 witness: from the temporary's `Node` scope the walk reaches the
`CallSite` root and answers its id. -/
theorem containing_body_correct_witness :
    DepthConsistent wTree ∧
    ((∀ t2 : ScopeTree, ∀ x : Scope, x.data = ScopeData.callSite →
        t2.containing_body x = some (some x.id)) ∧
      ∃ r, wTree.containing_body wNodeT = some r ∧ BodyWalk wTree wNodeT r) ∧
    wTree.containing_body wNodeT = some (some 1) :=
  ⟨by decide, containing_body_correct wTree wNodeT (by decide), by decide⟩

/-- C7: in a depth-consistent tree (which the recording invariant makes
acyclic), `is_subscope_of` is reflexive on every scope; and for a scope
`s` recorded with parent `p` at depth `d`, any depth stored for `p`
equals `d - 1`, `is_subscope_of s p` holds, and `is_subscope_of p s` is
false (indeed `s ≠ p` always holds here, so the "unless" case is empty). -/
theorem subscope_invariants (t : ScopeTree) (s p : Scope) (d : Nat)
    (hdc : DepthConsistent t) (hsp : pmLookup t s = some (p, d)) :
    (∀ x : Scope, t.is_subscope_of x x = some true) ∧
    (∀ q d2, pmLookup t p = some (q, d2) → d2 = d - 1) ∧
    t.is_subscope_of s p = some true ∧
    s ≠ p ∧
    t.is_subscope_of p s = some false := by
  have hds := scopeDepth_lookup hsp
  have hdp := dc_of_lookup hdc hsp
  refine ⟨is_subscope_refl t, ?_, ?_, ?_, ?_⟩
  · intro q d2 h2
    have := scopeDepth_lookup h2
    omega
  · exact (is_subscope_iff hdc s p).mpr (Ancestor.step hsp (Ancestor.refl p))
  · intro he
    rw [he] at hds
    omega
  · obtain ⟨b, hb, hiff⟩ :=
      is_subscope_of_go_spec hdc s (t.parent_map.length + 1) p
        (Nat.lt_succ_of_le (depth_le_length hdc p))
    have hnb : b ≠ true := by
      intro hbt
      have hanc := hiff.mp hbt
      have := ancestor_depth_le hdc hanc
      omega
    rw [ScopeTree.is_subscope_of, hb]
    cases b with
    | false => rfl
    | true => exact absurd rfl hnb

/-- C7 witness: the temporary's `Node` scope and its `Destruction` parent
in the sample tree. -/
theorem subscope_invariants_witness :
    DepthConsistent wTree ∧ pmLookup wTree wNodeT = some (wDestD, 4) ∧
    ((∀ x : Scope, wTree.is_subscope_of x x = some true) ∧
      (∀ q d2, pmLookup wTree wDestD = some (q, d2) → d2 = 4 - 1) ∧
      wTree.is_subscope_of wNodeT wDestD = some true ∧
      wNodeT ≠ wDestD ∧
      wTree.is_subscope_of wDestD wNodeT = some false) :=
  ⟨by decide, by decide, subscope_invariants wTree wNodeT wDestD 4 (by decide) (by decide)⟩

/-! Concrete ancestry facts in the sample tree, used to discharge the
common-ancestor hypotheses of the `nearest_common_ancestor` claims. -/

theorem wAnc_nodeT_blockB : Ancestor wTree wNodeT wBlockB := by
  have h1 : pmLookup wTree wNodeT = some (wDestD, 4) := by decide
  have h2 : pmLookup wTree wDestD = some (wRem0, 3) := by decide
  have h3 : pmLookup wTree wRem0 = some (wBlockB, 2) := by decide
  exact Ancestor.step h1 (Ancestor.step h2 (Ancestor.step h3 (Ancestor.refl wBlockB)))

theorem wAnc_rem0_blockB : Ancestor wTree wRem0 wBlockB := by
  have h3 : pmLookup wTree wRem0 = some (wBlockB, 2) := by decide
  exact Ancestor.step h3 (Ancestor.refl wBlockB)

/-- C2: on a depth-consistent tree, for scopes `a`, `b` having a common
ancestor (i.e. recorded in the same tree of the forest),
`nearest_common_ancestor` returns a scope that is a superscope of both,
no proper subscope of which is a superscope of both; it returns `a`
itself when `a = b`, and whichever scope has no recorded parent is itself
the answer. -/
theorem nearest_common_ancestor_correct (t : ScopeTree) (a b c0 : Scope)
    (hdc : DepthConsistent t) (hac : Ancestor t a c0) (hbc : Ancestor t b c0) :
    ∃ c, t.nearest_common_ancestor a b = some c ∧
      t.is_subscope_of a c = some true ∧
      t.is_subscope_of b c = some true ∧
      (∀ c', t.is_subscope_of c' c = some true → c' ≠ c →
        ¬(t.is_subscope_of a c' = some true ∧ t.is_subscope_of b c' = some true)) ∧
      (a = b → c = a) ∧
      (pmLookup t a = none → c = a) ∧
      (pmLookup t b = none → c = b) := by
  obtain ⟨c, hc, hn⟩ := nca_spec hdc a b c0 hac hbc
  refine ⟨c, hc, (is_subscope_iff hdc a c).mpr hn.1,
    (is_subscope_iff hdc b c).mpr hn.2.1, ?_, ?_, ?_, ?_⟩
  · intro c' hsub hne hand
    obtain ⟨ha, hb⟩ := hand
    have h1 := (is_subscope_iff hdc a c').mp ha
    have h2 := (is_subscope_iff hdc b c').mp hb
    have h3 := hn.2.2 c' h1 h2
    have h4 := (is_subscope_iff hdc c' c).mp hsub
    exact hne (ancestor_antisymm hdc h4 h3)
  · intro he
    subst he
    have h5 : t.nearest_common_ancestor a a = some a := by
      simp [ScopeTree.nearest_common_ancestor]
    exact Option.some.inj (hc.symm.trans h5)
  · intro hla
    by_cases hab : a = b
    · subst hab
      have h5 : t.nearest_common_ancestor a a = some a := by
        simp [ScopeTree.nearest_common_ancestor]
      exact Option.some.inj (hc.symm.trans h5)
    · have h5 : t.nearest_common_ancestor a b = some a := by
        simp [ScopeTree.nearest_common_ancestor, hab, hla]
      exact Option.some.inj (hc.symm.trans h5)
  · intro hlb
    by_cases hab : a = b
    · subst hab
      have h5 : t.nearest_common_ancestor a a = some a := by
        simp [ScopeTree.nearest_common_ancestor]
      exact Option.some.inj (hc.symm.trans h5)
    · cases hla : pmLookup t a with
      | none =>
        have h6 : c0 = a := ancestor_root hac hla
        have h7 : c0 = b := ancestor_root hbc hlb
        exact absurd (h6.symm.trans h7) hab
      | some pd =>
        have h5 : t.nearest_common_ancestor a b = some b := by
          obtain ⟨pa, da⟩ := pd
          simp [ScopeTree.nearest_common_ancestor, hab, hla, hlb]
        exact Option.some.inj (hc.symm.trans h5)

/-- C2 witness: in the sample chain the nearest common ancestor of the
temporary's `Node` scope and the statement-remainder scope is the
remainder scope itself. -/
theorem nearest_common_ancestor_correct_witness :
    DepthConsistent wTree ∧ Ancestor wTree wNodeT wBlockB ∧
    Ancestor wTree wRem0 wBlockB ∧
    (∃ c, wTree.nearest_common_ancestor wNodeT wRem0 = some c ∧
      wTree.is_subscope_of wNodeT c = some true ∧
      wTree.is_subscope_of wRem0 c = some true ∧
      (∀ c', wTree.is_subscope_of c' c = some true → c' ≠ c →
        ¬(wTree.is_subscope_of wNodeT c' = some true ∧
          wTree.is_subscope_of wRem0 c' = some true)) ∧
      (wNodeT = wRem0 → c = wNodeT) ∧
      (pmLookup wTree wNodeT = none → c = wNodeT) ∧
      (pmLookup wTree wRem0 = none → c = wRem0)) ∧
    wTree.nearest_common_ancestor wNodeT wRem0 = some wRem0 :=
  ⟨by decide, wAnc_nodeT_blockB, wAnc_rem0_blockB,
    nearest_common_ancestor_correct wTree wNodeT wRem0 wBlockB (by decide)
      wAnc_nodeT_blockB wAnc_rem0_blockB, by decide⟩

/-- C4 counterexample: the claim asserts symmetry for every pair of
scopes, including parentless ones; but for two distinct parentless scopes
the source returns whichever argument comes first, so the two call orders
disagree (here on the empty tree, whose trivial parent map vacuously
satisfies every recording invariant). -/
theorem nca_symm_cex :
    emptyTree.nearest_common_ancestor { id := 0, data := ScopeData.node }
        { id := 1, data := ScopeData.node } =
      some { id := 0, data := ScopeData.node } ∧
    emptyTree.nearest_common_ancestor { id := 1, data := ScopeData.node }
        { id := 0, data := ScopeData.node } =
      some { id := 1, data := ScopeData.node } ∧
    emptyTree.nearest_common_ancestor { id := 0, data := ScopeData.node }
        { id := 1, data := ScopeData.node } ≠
      emptyTree.nearest_common_ancestor { id := 1, data := ScopeData.node }
        { id := 0, data := ScopeData.node } := by
  refine ⟨by decide, by decide, by decide⟩

/-- C4 amended: `nearest_common_ancestor` is symmetric for scopes that lie
in the same tree (they have a common ancestor) of a depth-consistent
forest; for two distinct scopes with no recorded parents (different trees)
the code instead returns its first argument. -/
theorem nca_symm_amended (t : ScopeTree) (a b c0 : Scope) (hdc : DepthConsistent t)
    (hac : Ancestor t a c0) (hbc : Ancestor t b c0) :
    t.nearest_common_ancestor a b = t.nearest_common_ancestor b a := by
  obtain ⟨c1, e1, h1⟩ := nca_spec hdc a b c0 hac hbc
  obtain ⟨c2, e2, h2⟩ := nca_spec hdc b a c0 hbc hac
  rw [e1, e2, isNCA_unique hdc h1 (isNCA_swap h2)]

/-- C4 amended witness: symmetry on a pair of scopes of the sample tree. -/
theorem nca_symm_amended_witness :
    DepthConsistent wTree ∧ Ancestor wTree wNodeT wBlockB ∧
    Ancestor wTree wRem0 wBlockB ∧
    wTree.nearest_common_ancestor wNodeT wRem0 =
      wTree.nearest_common_ancestor wRem0 wNodeT :=
  ⟨by decide, wAnc_nodeT_blockB, wAnc_rem0_blockB,
    nca_symm_amended wTree wNodeT wRem0 wBlockB (by decide)
      wAnc_nodeT_blockB wAnc_rem0_blockB⟩

/-- C3 counterexample: with block span `[0, 10)` and the indexed
statement's span `[5, 7)` (whose start lies within the block's range),
the claim predicts a sub-range starting right after the statement's
range, i.e. at `7`; the code instead returns `[5, 10)`, starting at the
statement's start, so the statement itself is included in the range. -/
theorem scope_span_remainder_cex :
    Scope.span cexRemScope cexHir wTree = some { lo := 5, hi := 10, ctxt := 0 } ∧
    Scope.span cexRemScope cexHir wTree ≠ some { lo := 7, hi := 10, ctxt := 0 } := by
  refine ⟨by decide, by decide⟩

/-- C3 amended: for a `Remainder` scope whose id resolves to a block (and
whose statement index is in bounds), `span` returns the sub-range that
starts at the indexed statement's start and ends at the block's end,
provided the statement's start lies within the block's full range;
otherwise — the guard failing, or any non-`Remainder` kind — it returns
the full source range of the referenced node. -/
theorem scope_span_remainder_amended (tcx : HirCtx) (t : ScopeTree) (s : Scope)
    (i : Nat) (stmts : List SpanM) (stmt : SpanM) (r : Nat)
    (hroot : t.root_body = some r) (hdata : s.data = ScopeData.remainder i)
    (hblk : tcx.blockStmtSpans s.id = some stmts) (hstmt : stmts[i]? = some stmt) :
    Scope.span s tcx t =
      some (if (tcx.nodeSpan s.id).lo ≤ stmt.lo ∧ stmt.lo ≤ (tcx.nodeSpan s.id).hi
        then { lo := stmt.lo, hi := (tcx.nodeSpan s.id).hi, ctxt := (tcx.nodeSpan s.id).ctxt }
        else tcx.nodeSpan s.id) ∧
    ∀ s2 : Scope, (∀ j : Nat, s2.data ≠ ScopeData.remainder j) →
      Scope.span s2 tcx t = some (tcx.nodeSpan s2.id) := by
  constructor
  · simp only [Scope.span, hroot, hdata, hblk, hstmt]
    split_ifs with h <;> rfl
  · intro s2 hns
    cases hd : s2.data with
    | remainder j => exact absurd hd (hns j)
    | node => simp [Scope.span, hroot, hd]
    | callSite => simp [Scope.span, hroot, hd]
    | arguments => simp [Scope.span, hroot, hd]
    | destruction => simp [Scope.span, hroot, hd]

/-- C3 amended witness: the concrete block/statement layout of the
counterexample satisfies the amended description. -/
theorem scope_span_remainder_amended_witness :
    wTree.root_body = some 0 ∧ cexRemScope.data = ScopeData.remainder 0 ∧
    cexHir.blockStmtSpans cexRemScope.id = some [{ lo := 5, hi := 7, ctxt := 0 }] ∧
    (([{ lo := 5, hi := 7, ctxt := 0 }] : List SpanM)[(0 : Nat)]? =
      some { lo := 5, hi := 7, ctxt := 0 }) ∧
    (Scope.span cexRemScope cexHir wTree =
      some (if (cexHir.nodeSpan cexRemScope.id).lo ≤ (5 : Nat) ∧
          (5 : Nat) ≤ (cexHir.nodeSpan cexRemScope.id).hi
        then ({ lo := 5, hi := (cexHir.nodeSpan cexRemScope.id).hi,
                ctxt := (cexHir.nodeSpan cexRemScope.id).ctxt } : SpanM)
        else cexHir.nodeSpan cexRemScope.id) ∧
      ∀ s2 : Scope, (∀ j : Nat, s2.data ≠ ScopeData.remainder j) →
        Scope.span s2 cexHir wTree = some (cexHir.nodeSpan s2.id)) :=
  ⟨by decide, by decide, by decide, by decide,
    scope_span_remainder_amended cexHir wTree cexRemScope 0
      [{ lo := 5, hi := 7, ctxt := 0 }] { lo := 5, hi := 7, ctxt := 0 } 0
      (by decide) (by decide) (by decide) (by decide)⟩
